import Mathlib

/-!
Verification of the adaptive web crawler's core components against its
natural-language specification.

The development shallowly embeds the Python source:

* floating-point numbers are modelled as exact rationals (`ℚ`);
* external library collaborators (sklearn's TF-IDF cosine similarities,
  NLTK's tokenizer/lemmatizer, hashlib's sha256, urllib's parser and
  percent-decoder, the filesystem) are abstract function parameters, so
  every theorem is quantified over their behaviour;
* Python dictionaries keyed by depth are association lists in insertion
  order; Python sets of strings are lists where only membership matters.

Each embedded definition keeps the name and the control flow of the
source function it translates.
-/

namespace Crawler

/-- Python's `needle in hay` substring test on strings: `needle` occurs as a
contiguous substring of `hay`. -/
def strContains (hay needle : String) : Bool :=
  decide (needle.toList <:+: hay.toList)

/-- Python's `str.lower`: per-character lowercasing. -/
def pyLower (s : String) : String :=
  ⟨s.data.map Char.toLower⟩

/-- Python's `str.isalnum`: non-empty and every character alphanumeric. -/
def pyIsAlnum (s : String) : Bool :=
  s ≠ "" && s.toList.all Char.isAlphanum

/-- Python's `str.isspace`: non-empty and every character whitespace. -/
def pyIsSpace (s : String) : Bool :=
  s ≠ "" && s.toList.all Char.isWhitespace

/-- Append a string to the list unless it is already present (first-seen
de-duplication step). -/
def insertUnique (l : List String) (s : String) : List String :=
  if s ∈ l then l else l ++ [s]

/-- De-duplicate a list of strings preserving first-seen order. -/
def dedupFirstSeen (l : List String) : List String :=
  l.foldl insertUnique []

/-! ### Configuration constants (`src/config.py`) -/

/-- `config.store.heuristic_score_weight = 0.6`. -/
def heuristic_score_weight : ℚ := 6/10

/-- `config.store.cosine_similarity_score_weight = 0.4`. -/
def cosine_similarity_score_weight : ℚ := 4/10

/-- `config.crawler.minimum_relevance_threshold = 0.15`. -/
def minimum_relevance_threshold : ℚ := 15/100

/-- `config.crawler.depth_relevance_step = 0.05`. -/
def depth_relevance_step : ℚ := 5/100

/-! ### Depth-adaptive relevance threshold (`src/crawler/crawler.py`, `crawl`)

The scheduler computes, at each depth,
`relevance_threshold = max(config.crawler.minimum_relevance_threshold,
 base_relevance_threshold - (current_depth * config.crawler.depth_relevance_step))`. -/

/-- The depth-adaptive relevance threshold computed inside `AdaptiveWebCrawler.crawl`. -/
def relevance_threshold_at (base_relevance_threshold : ℚ) (current_depth : ℕ) : ℚ :=
  max minimum_relevance_threshold
    (base_relevance_threshold - (current_depth * depth_relevance_step))

/-! ### Heuristic page score (`src/crawler/heuristics.py`, `ContentHeuristics.calculate_page_score`)

The extractor's dictionary is a structure; `publish_date` is an optional
POSIX timestamp in seconds (a naive Python `datetime` is interpreted as
UTC by `replace(tzinfo=timezone.utc)`, which leaves its clock fields, and
hence the timestamp value used here, unchanged).  The float operation
`x ** 0.5` is an abstract parameter `rsqrt`. -/

structure PageData where
  title : String
  main_content : String
  publish_date : Option Int
  content_length : ℕ
deriving DecidableEq, Repr

/-- Python's `(now - publish_date).days`: the `days` field of a `timedelta`
is the floor of the difference in days. Timestamps are in seconds. -/
def pythonDaysBetween (now publish : Int) : Int :=
  Int.fdiv (now - publish) 86400

/-- `sum(1 for kw in prompt_keywords if kw.lower() in text)` where `text`
is already lowercased. -/
def countKeywordMatches (prompt_keywords : List String) (text : String) : ℕ :=
  (prompt_keywords.filter (fun kw => strContains text (pyLower kw))).length

/-- Heuristic component 1 of `calculate_page_score`:
`title_score = title_matches / len(prompt_keywords)`. -/
def cps_title_score (prompt_keywords : List String) (title : String) : ℚ :=
  (countKeywordMatches prompt_keywords title : ℚ) / (prompt_keywords.length : ℚ)

/-- Heuristic component 2 of `calculate_page_score`:
`content_score = min((density_score * 1000) ** 0.5, 1.0)` with
`density_score = (content_matches / (content_length + 1e-6)) / len(prompt_keywords)`. -/
def cps_content_score (rsqrt : ℚ → ℚ) (prompt_keywords : List String)
    (content : String) (content_length : ℕ) : ℚ :=
  let density_score : ℚ :=
    ((countKeywordMatches prompt_keywords content : ℚ) /
      ((content_length : ℚ) + 1/1000000)) / (prompt_keywords.length : ℚ)
  min (rsqrt (density_score * 1000)) 1

/-- Heuristic component 3 of `calculate_page_score`: the amount added to
`score` by the freshness branch (`score += 0.15 / 0.10 / 0.05`). -/
def cps_freshness_add (now : Int) (publish_date : Option Int) : ℚ :=
  match publish_date with
  | none => 0
  | some publish =>
    let days_old := pythonDaysBetween now publish
    if 0 ≤ days_old then
      if days_old < 30 then 15/100
      else if days_old < 180 then 10/100
      else if days_old < 365 then 5/100
      else 0
    else 0

/-- Heuristic component 4 of `calculate_page_score`: the amount added to
`score` by the content-length branch. -/
def cps_length_add (content_length : ℕ) : ℚ :=
  if 1500 < content_length then 15/100
  else if 750 < content_length then 10/100
  else if 300 < content_length then 5/100
  else 0

/-- Shallow embedding of `ContentHeuristics.calculate_page_score`, following
the source's sequential accumulation of `score` (each `score += bonus`
statement is an addition). -/
def calculate_page_score (rsqrt : ℚ → ℚ) (now : Int)
    (extracted_data : PageData) (prompt_keywords : List String) : ℚ :=
  if prompt_keywords = [] then 0
  else
    let title := pyLower extracted_data.title
    let content := pyLower extracted_data.main_content
    let score1 : ℚ := cps_title_score prompt_keywords title * (3/10)
    let score2 : ℚ := score1 +
      cps_content_score rsqrt prompt_keywords content extracted_data.content_length * (4/10)
    let score3 : ℚ := score2 + cps_freshness_add now extracted_data.publish_date
    let score4 : ℚ := score3 + cps_length_add extracted_data.content_length
    let score5 : ℚ := if title.length < 10 then score4 * (9/10) else score4
    max 0 (min score5 1)

/-- Freshness bonus as the specification's table words it. -/
def spec_freshness_bonus (now : Int) (publish_date : Option Int) : ℚ :=
  match publish_date with
  | none => 0
  | some publish =>
    let age := pythonDaysBetween now publish
    if 0 ≤ age ∧ age < 30 then 15/100
    else if 0 ≤ age ∧ age < 180 then 10/100
    else if 0 ≤ age ∧ age < 365 then 5/100
    else 0

/-- Length bonus as the specification's table words it. -/
def spec_length_bonus (word_count : ℕ) : ℚ :=
  if 1500 < word_count then 15/100
  else if 750 < word_count then 10/100
  else if 300 < word_count then 5/100
  else 0

/-- The heuristic-score reference definition, written from the
specification's component table: a weighted sum of four independent
components, the short-title penalty, then the clamp to `[0,1]`. -/
def spec_page_score (rsqrt : ℚ → ℚ) (now : Int)
    (extracted_data : PageData) (prompt_keywords : List String) : ℚ :=
  if prompt_keywords = [] then 0
  else
    let titleComponent : ℚ :=
      (countKeywordMatches prompt_keywords (pyLower extracted_data.title) : ℚ) /
        (prompt_keywords.length : ℚ)
    let density : ℚ :=
      ((countKeywordMatches prompt_keywords (pyLower extracted_data.main_content) : ℚ) /
        ((extracted_data.content_length : ℚ) + 1/1000000)) / (prompt_keywords.length : ℚ)
    let bodyComponent : ℚ := min (rsqrt (1000 * density)) 1
    let weightedSum : ℚ :=
      (3/10) * titleComponent + (4/10) * bodyComponent +
        spec_freshness_bonus now extracted_data.publish_date +
        spec_length_bonus extracted_data.content_length
    let penalized : ℚ :=
      if (pyLower extracted_data.title).length < 10 then weightedSum * (9/10) else weightedSum
    max 0 (min penalized 1)

/-! ### Content deduplication (`src/crawler/heuristics.py`,
`ContentHeuristics.should_process_content`)

`hashlib.sha256(...).hexdigest()` is an abstract parameter
`sha : String → Option String`; `none` models the `except` branch in which
hashing raised.  The mutable `self.content_hashes` set is threaded through
explicitly; only membership matters, so it is a list. -/

/-- Shallow embedding of `ContentHeuristics.should_process_content`: returns
the boolean decision and the updated `content_hashes` set. -/
def should_process_content (sha : String → Option String)
    (content_hashes : List String) (content_text : String) : Bool × List String :=
  if content_text = "" || pyIsSpace content_text then (false, content_hashes)
  else
    match sha content_text with
    | none => (false, content_hashes)
    | some content_hash =>
      if content_hash ∈ content_hashes then (false, content_hashes)
      else (true, content_hash :: content_hashes)

/-- The dedup-relevant fragment of the crawler's state: the content-hash set
and the content store (only the extracted body text of each stored document
matters here). -/
structure DedupState where
  content_hashes : List String
  content_store : List String
deriving DecidableEq, Repr

/-- The store/dedup step of `AdaptiveWebCrawler._process_single_url`:
`if content['content'] and self.heuristics.should_process_content(...):
self.content_store.append(content)`.  Short-circuit evaluation means the
dedup check (and its hash insertion) only runs for non-empty content. -/
def process_content_step (sha : String → Option String)
    (st : DedupState) (content : String) : DedupState :=
  if content ≠ "" then
    let r := should_process_content sha st.content_hashes content
    if r.1 then ⟨r.2, st.content_store ++ [content]⟩
    else ⟨r.2, st.content_store⟩
  else st

/-- A sequence of `_process_single_url` store steps over a list of extracted
bodies. -/
def process_contents (sha : String → Option String)
    (st : DedupState) (bodies : List String) : DedupState :=
  bodies.foldl (process_content_step sha) st

/-! ### URL keyword filter (`src/crawler/heuristics.py`, `URLHeuristics`)

`urllib.parse.urlparse` and `urllib.parse.unquote` are abstract parameters:
`parse url = some (path, query)` gives the parsed components, `none` models
the `except` branch in which parsing raised; `unq` is the percent-decoder. -/

structure URLHeuristics where
  prompt_keywords : List String
  min_keyword_matches : ℕ
deriving DecidableEq, Repr

/-- `URLHeuristics.__init__`: lowercases the prompt keywords and fixes
`min_keyword_matches = 1`. -/
def URLHeuristics.init (prompt_keywords : List String) : URLHeuristics :=
  ⟨prompt_keywords.map pyLower, 1⟩

/-- Shallow embedding of `URLHeuristics._url_contains_keywords`. -/
def url_contains_keywords (parse : String → Option (String × String))
    (unq : String → String) (h : URLHeuristics) (url : String) : Bool :=
  if h.prompt_keywords = [] then true
  else
    match parse url with
    | none => false
    | some (path, query) =>
      let path_query := pyLower (unq (path ++ "?" ++ query))
      let match_count := (h.prompt_keywords.filter (fun kw => strContains path_query kw)).length
      decide (h.min_keyword_matches ≤ match_count)

/-! ### Keyword extraction (`src/crawler/utils.py`, `extract_keywords`)

NLTK's `word_tokenize` and `WordNetLemmatizer.lemmatize` are abstract
parameters; `stop` is the (arbitrary) stop-word set.  The Python source
collects results into a `set` and returns `list(keywords)`, whose iteration
order is unspecified; the embedding lists the set's elements in first-insertion
order, so only membership and the underlying set are source-faithful. -/

/-- WordNet part-of-speech tags: noun, verb, adjective, adverb. -/
inductive WNPos where
  | n : WNPos
  | v : WNPos
  | a : WNPos
  | r : WNPos
deriving DecidableEq, Repr

/-- Shallow embedding of `extract_keywords`: joins the phrases, lowercases,
tokenizes, lemmatizes each token as a noun and then the result as a verb,
and keeps the final lemma when it is alphanumeric, not a stop word, and
longer than two characters. -/
def extract_keywords (tokenize : String → List String)
    (lemmatize : String → WNPos → String) (stop : List String)
    (keyword_phrases : List String) : List String :=
  if keyword_phrases = [] then []
  else
    let full_text := String.intercalate " " keyword_phrases
    let words := tokenize (pyLower full_text)
    words.foldl (fun keywords word =>
      let lemma_n := lemmatize word WNPos.n
      let lemma_v := lemmatize lemma_n WNPos.v
      if pyIsAlnum lemma_v ∧ lemma_v ∉ stop ∧ 2 < lemma_v.length then
        insertUnique keywords lemma_v
      else keywords) []

/-- The keyword-extraction pipeline as the specification words it:
lowercase, tokenize, drop stop-words, drop short and non-alphanumeric
tokens, then lemmatize each surviving token across noun/verb/adjective/adverb
forms keeping the original token and all lemma forms, de-duplicated in
first-seen order. -/
def extract_keywords_spec (tokenize : String → List String)
    (lemmatize : String → WNPos → String) (stop : List String)
    (keyword_phrases : List String) : List String :=
  if keyword_phrases = [] then []
  else
    let words := tokenize (pyLower (String.intercalate " " keyword_phrases))
    let kept := words.filter (fun w => w ∉ stop ∧ pyIsAlnum w ∧ 2 < w.length)
    let expanded := kept.flatMap (fun w =>
      [w, lemmatize w WNPos.n, lemmatize w WNPos.v, lemmatize w WNPos.a, lemmatize w WNPos.r])
    dedupFirstSeen expanded

/-! ### Ranking engine (`src/crawler/store/scorer.py`, `calculate_score`)

A stored content item is a structure: `main_content` and `heuristic_score`
are the two dictionary keys the ranking engine reads, and `rest` stands for
the identity of all remaining key/value pairs of the dictionary (url, title,
…), which `calculate_score` copies through untouched.

The sklearn TF-IDF cosine similarities of the query against the documents
are an abstract input `cosines` (one rational per stored item).
`np.argsort` (default `kind='quicksort'`, documented NOT stable: the order
of tied keys is unspecified) is an abstract parameter `sorter` constrained
only by its documented contract `IsArgsort` — a permutation of the index
range, ascending in value.  The concrete `argsort` below is the stable
refinement numpy exhibits on arrays below its insertion-sort cutoff; it is
one admissible `sorter`, used to instantiate concrete runs on short stores.
The final `results.sort(key=..., reverse=True)` is Python's stable
descending sort. -/

structure StoreItem where
  main_content : String
  heuristic_score : ℚ
  rest : ℕ
deriving DecidableEq, Repr

instance : Inhabited StoreItem := ⟨⟨"", 0, 0⟩⟩

/-- A record returned by `calculate_score`: the copied store item plus the
three score keys it adds. -/
structure ScoredItem where
  item : StoreItem
  cosine_similarity_score : ℚ
  heuristic_score : ℚ
  weighted_score : ℚ
deriving DecidableEq, Repr

/-- Ascending order on indices of `ws` by value and then by index: the order
produced by a stable ascending argsort. -/
def idxRel (ws : List ℚ) (i j : ℕ) : Prop :=
  ws.getD i 0 < ws.getD j 0 ∨ (ws.getD i 0 = ws.getD j 0 ∧ i ≤ j)

instance (ws : List ℚ) : DecidableRel (idxRel ws) := fun i j => by
  unfold idxRel; infer_instance

instance (ws : List ℚ) : IsTotal ℕ (idxRel ws) := by
  constructor
  intro i j
  rcases lt_trichotomy (ws.getD i 0) (ws.getD j 0) with h | h | h
  · exact Or.inl (Or.inl h)
  · rcases Nat.le_total i j with hij | hij
    · exact Or.inl (Or.inr ⟨h, hij⟩)
    · exact Or.inr (Or.inr ⟨h.symm, hij⟩)
  · exact Or.inr (Or.inl h)

instance (ws : List ℚ) : IsTrans ℕ (idxRel ws) := by
  constructor
  intro i j k hij hjk
  rcases hij with h1 | ⟨e1, l1⟩
  · rcases hjk with h2 | ⟨e2, _⟩
    · exact Or.inl (h1.trans h2)
    · exact Or.inl (e2 ▸ h1)
  · rcases hjk with h2 | ⟨e2, l2⟩
    · exact Or.inl (e1 ▸ h2)
    · exact Or.inr ⟨e1.trans e2, l1.trans l2⟩

/-- The stable ascending argsort of `ws`: the behaviour `np.argsort` shows
on arrays below numpy's insertion-sort cutoff (one admissible
implementation of `IsArgsort`, not the general contract). -/
def argsort (ws : List ℚ) : List ℕ :=
  List.insertionSort (idxRel ws) (List.range ws.length)

/-- The documented contract of `np.argsort(ws)` for every sort kind: the
result is a permutation of `0 … len(ws)-1` listing the values of `ws` in
ascending order.  Nothing is promised about the relative order of tied
values (`kind='quicksort'` is not stable). -/
def IsArgsort (sorter : List ℚ → List ℕ) : Prop :=
  ∀ ws : List ℚ, (sorter ws).Perm (List.range ws.length) ∧
    List.Pairwise (fun i j => ws.getD i 0 ≤ ws.getD j 0) (sorter ws)

/-- Descending weighted-score order on scored items (non-strict, total). -/
def weightedDesc (a b : ScoredItem) : Prop :=
  b.weighted_score ≤ a.weighted_score

instance : DecidableRel weightedDesc := fun a b => by
  unfold weightedDesc; infer_instance

instance : IsTotal ScoredItem weightedDesc :=
  ⟨fun a b => le_total b.weighted_score a.weighted_score⟩

instance : IsTrans ScoredItem weightedDesc :=
  ⟨fun _ _ _ h1 h2 => le_trans h2 h1⟩

/-- Shallow embedding of `calculate_score`.  `k` is a Python integer; the
weights default to the configuration constants at every call site in the
source; `sorter` abstracts `np.argsort` (see `IsArgsort`). -/
def calculate_score (sorter : List ℚ → List ℕ) (content_store : List StoreItem)
    (cosines : List ℚ) (k : ℤ) (weight_heuristic weight_cosine : ℚ) : List ScoredItem :=
  if content_store.isEmpty then []
  else
    let documents := content_store.map (·.main_content)
    if documents.all (· = "") then []
    else
      let num_docs : ℤ := content_store.length
      let actual_k : ℤ := min k num_docs
      if actual_k ≤ 0 then []
      else
        let heuristic_scores := content_store.map (·.heuristic_score)
        let weighted_scores := List.zipWith
          (fun h c => weight_heuristic * h + weight_cosine * c) heuristic_scores cosines
        let top_k_indices := (sorter weighted_scores).reverse.take actual_k.toNat
        let results := top_k_indices.map (fun i =>
          { item := content_store.getD i default
            cosine_similarity_score := cosines.getD i 0
            heuristic_score := heuristic_scores.getD i 0
            weighted_score := weighted_scores.getD i 0 : ScoredItem })
        List.insertionSort weightedDesc results

/-! ### Harvest meter (`src/crawler/evaluation_metrics.py`, `HarvestRatio`)

`self.depth_metrics` is a Python dict from depth to
`{"relevant": _, "total": _}`; it is modelled as an association list in
insertion order.  Results passed to `record_cache_access` are represented
by their `weighted_score` values. -/

structure HarvestBucket where
  relevant : ℕ
  total : ℕ
deriving DecidableEq, Repr

structure HarvestRatioState where
  depth_metrics : List (ℕ × HarvestBucket)
  cache_metrics : HarvestBucket
deriving DecidableEq, Repr

/-- `HarvestRatio.__init__`. -/
def initHarvest : HarvestRatioState := ⟨[], ⟨0, 0⟩⟩

/-- First-match lookup in the depth dictionary. -/
def lookupDepth : List (ℕ × HarvestBucket) → ℕ → Option HarvestBucket
  | [], _ => none
  | p :: ps, d => if p.1 = d then some p.2 else lookupDepth ps d

/-- The per-bucket effect of one processed page in `record_page`:
`total += 1`, and `relevant += 1` iff `page_score >= depth_threshold`. -/
def pageBucketUpdate (page_score depth_threshold : ℚ) (b : HarvestBucket) : HarvestBucket :=
  ⟨if depth_threshold ≤ page_score then b.relevant + 1 else b.relevant, b.total + 1⟩

/-- Shallow embedding of `HarvestRatio.record_page`. -/
def record_page (st : HarvestRatioState) (depth : ℕ)
    (page_score depth_threshold : ℚ) (is_processed : Bool) : HarvestRatioState :=
  let dm := if (lookupDepth st.depth_metrics depth).isNone
    then st.depth_metrics ++ [(depth, ⟨0, 0⟩)]
    else st.depth_metrics
  if is_processed then
    ⟨dm.map (fun p =>
        if p.1 = depth then (p.1, pageBucketUpdate page_score depth_threshold p.2) else p),
     st.cache_metrics⟩
  else ⟨dm, st.cache_metrics⟩

/-- Shallow embedding of `HarvestRatio.record_cache_access`; each result is
represented by its `weighted_score` (`r.get('weighted_score', 0)`). -/
def record_cache_access (st : HarvestRatioState) (results : List ℚ)
    (base_relevance_threshold : ℚ) : HarvestRatioState :=
  if results = [] then st
  else
    let relevant_count := (results.filter (fun r => base_relevance_threshold ≤ r)).length
    ⟨st.depth_metrics,
     ⟨st.cache_metrics.relevant + relevant_count,
      st.cache_metrics.total + results.length⟩⟩

/-- `HarvestRatio.get_depth_harvest_ratio`. -/
def get_depth_harvest_ratio (st : HarvestRatioState) (depth : ℕ) : ℚ :=
  match lookupDepth st.depth_metrics depth with
  | none => 0
  | some b => if b.total = 0 then 0 else (b.relevant : ℚ) / (b.total : ℚ)

/-- Sum of the `relevant` counters over all depth buckets. -/
def cumulativeRelevant (st : HarvestRatioState) : ℕ :=
  (st.depth_metrics.map (fun p => p.2.relevant)).sum

/-- Sum of the `total` counters over all depth buckets. -/
def cumulativeTotal (st : HarvestRatioState) : ℕ :=
  (st.depth_metrics.map (fun p => p.2.total)).sum

/-- `HarvestRatio.get_cumulative_harvest_ratio`. -/
def get_cumulative_harvest_ratio (st : HarvestRatioState) : ℚ :=
  if cumulativeTotal st = 0 then 0
  else (cumulativeRelevant st : ℚ) / (cumulativeTotal st : ℚ)

/-- `HarvestRatio.get_cache_harvest_ratio`. -/
def get_cache_harvest_ratio (st : HarvestRatioState) : ℚ :=
  if st.cache_metrics.total = 0 then 0
  else (st.cache_metrics.relevant : ℚ) / (st.cache_metrics.total : ℚ)

/-- `HarvestRatio.get_overall_harvest_ratio`. -/
def get_overall_harvest_ratio (st : HarvestRatioState) : ℚ :=
  if cumulativeTotal st + st.cache_metrics.total = 0 then 0
  else ((cumulativeRelevant st + st.cache_metrics.relevant : ℕ) : ℚ) /
    ((cumulativeTotal st + st.cache_metrics.total : ℕ) : ℚ)

/-- The depth bucket the meter observably holds for `depth`: the stored
bucket, or zero counters when the depth was never recorded (the accessors
treat a missing key and zero counters alike). -/
def bucketAt (st : HarvestRatioState) (depth : ℕ) : HarvestBucket :=
  (lookupDepth st.depth_metrics depth).getD ⟨0, 0⟩

/-- The running relevant-within-total invariant of the meter. -/
def MeterWF (st : HarvestRatioState) : Prop :=
  (∀ p ∈ st.depth_metrics, p.2.relevant ≤ p.2.total) ∧
  st.cache_metrics.relevant ≤ st.cache_metrics.total

/-- An observable call on the harvest meter. -/
inductive MeterOp where
  | page (depth : ℕ) (page_score depth_threshold : ℚ) (is_processed : Bool) : MeterOp
  | cache (results : List ℚ) (base_relevance_threshold : ℚ) : MeterOp
deriving Repr

/-- Apply one recorded call. -/
def applyMeterOp (st : HarvestRatioState) : MeterOp → HarvestRatioState
  | .page d s t p => record_page st d s t p
  | .cache rs b => record_cache_access st rs b

/-- Run a sequence of calls on a fresh meter. -/
def runMeter (ops : List MeterOp) : HarvestRatioState :=
  ops.foldl applyMeterOp initHarvest

/-! ### Persistence (`src/crawler/store/persistence.py`, `load_state`)

File reads are an oracle: each of the three files is either `missing`
(the `.exists()` check fails), `ok v` (unpickles to `v`), or `failed`
(opening or unpickling raised).  The function returns the pair
`(visited_urls, content_hashes)` together with the in-memory content
store as left by `initialize_store`. -/

inductive LoadResult (α : Type) where
  | missing : LoadResult α
  | ok : α → LoadResult α
  | failed : LoadResult α
deriving DecidableEq, Repr

/-- The value obtained from a successfully loaded file, or the fresh default. -/
def LoadResult.loaded {α : Type} (dflt : α) : LoadResult α → α
  | .ok v => v
  | _ => dflt

structure PersistedFiles where
  visited_urls_file : LoadResult (List String)
  content_hashes_file : LoadResult (List String)
  content_store_file : LoadResult (List StoreItem)
deriving Repr

/-- Shallow embedding of `load_state`: the three loads run in sequence inside
one `try`; any `failed` load reaches the handler, which resets
`visited_urls` and `content_hashes` to empty sets and calls
`initialize_store([])`. -/
def load_state (files : PersistedFiles) :
    List String × List String × List StoreItem :=
  match files.visited_urls_file with
  | .failed => ([], [], [])
  | v =>
    match files.content_hashes_file with
    | .failed => ([], [], [])
    | h =>
      match files.content_store_file with
      | .failed => ([], [], [])
      | s => (v.loaded [], h.loaded [], s.loaded [])

/-- A concrete stand-in for NLTK's `word_tokenize` on plain space-separated
text: split on spaces (this is `word_tokenize`'s behaviour on the inputs it
is applied to below). -/
def toyTokenize (s : String) : List String :=
  ((s.data.splitOn ' ').map (fun cs => String.mk cs)).filter (fun w => w ≠ "")

/-- A concrete stand-in for `WordNetLemmatizer.lemmatize` agreeing with
WordNet on the words it is applied to below: `lemmatize("cats", pos) = "cat"`
and every other word maps to itself. -/
def toyLemmatize (w : String) (pos : WNPos) : String :=
  if w = "cats" ∧ (pos = WNPos.n ∨ pos = WNPos.v) then "cat" else w

end Crawler

namespace Crawler

/-! ## Helper lemmas -/

theorem cps_freshness_eq_spec (now : Int) (pd : Option Int) :
    cps_freshness_add now pd = spec_freshness_bonus now pd := by
  cases pd with
  | none => rfl
  | some p =>
    simp only [cps_freshness_add, spec_freshness_bonus]
    split_ifs <;> first | rfl | omega

/-! ## Claim theorems -/

/-- Claim C7: for every depth `d ≥ 0` and base threshold, the scheduler's
depth-adaptive relevance threshold equals
`max(minimum_relevance_threshold, base − d · depth_relevance_step)` with
defaults `0.15` and `0.05`, is at least `minimum_relevance_threshold`, and
is monotonically non-increasing in the depth. -/
theorem claim_depth_threshold (base : ℚ) (d d' : ℕ) (hdd : d ≤ d') :
    relevance_threshold_at base d
      = max minimum_relevance_threshold (base - d * depth_relevance_step) ∧
    minimum_relevance_threshold ≤ relevance_threshold_at base d ∧
    relevance_threshold_at base d' ≤ relevance_threshold_at base d ∧
    minimum_relevance_threshold = 15/100 ∧ depth_relevance_step = 5/100 := by
  refine ⟨rfl, le_max_left _ _, ?_, rfl, rfl⟩
  apply max_le_max le_rfl
  have hstep : (d : ℚ) * depth_relevance_step ≤ (d' : ℚ) * depth_relevance_step := by
    apply mul_le_mul_of_nonneg_right
    · exact_mod_cast hdd
    · norm_num [depth_relevance_step]
  linarith

/-- Witness for C7 at depth 2 ≤ 3 and the default base threshold 0.4. -/
theorem claim_depth_threshold_witness :
    minimum_relevance_threshold ≤ relevance_threshold_at (4/10) 2 ∧
    relevance_threshold_at (4/10) 3 ≤ relevance_threshold_at (4/10) 2 := by
  have h := claim_depth_threshold (4/10) 2 3 (by norm_num)
  exact ⟨h.2.1, h.2.2.1⟩

/-- Claim C9: if loading any persisted component fails during `load_state`,
the function returns empty visited-URL and content-hash sets and resets the
in-memory content store to empty; when the files do not exist it likewise
returns empty state. -/
theorem claim_load_state_failure (files : PersistedFiles) :
    ((files.visited_urls_file = .failed ∨ files.content_hashes_file = .failed ∨
        files.content_store_file = .failed) → load_state files = ([], [], [])) ∧
    (files.visited_urls_file = .missing → files.content_hashes_file = .missing →
      files.content_store_file = .missing → load_state files = ([], [], [])) := by
  obtain ⟨v, h, s⟩ := files
  constructor
  · rintro (rfl | rfl | rfl)
    · rfl
    · cases v <;> rfl
    · cases v <;> cases h <;> rfl
  · rintro rfl rfl rfl
    rfl

/-- Witness for C9: a run in which the visited URLs load but the hash file
fails yields entirely fresh state. -/
theorem claim_load_state_failure_witness :
    load_state ⟨.ok ["https://a"], .failed, .ok [⟨"body", 1, 0⟩]⟩ = ([], [], []) :=
  (claim_load_state_failure _).1 (Or.inr (Or.inl rfl))

/-- Claim C2: for every extracted document and keyword list,
`calculate_page_score` returns exactly the reference definition's clamped
weighted sum — 0.3 · title fraction + 0.4 · min(√(1000·density), 1) +
freshness bonus + length bonus, multiplied by 0.9 for titles shorter than
10 characters and clamped to [0,1] — and returns 0 for an empty keyword
list.  The float square root is an arbitrary function `rsqrt`. -/
theorem claim_calculate_page_score_formula (rsqrt : ℚ → ℚ) (now : Int)
    (d : PageData) (kws : List String) :
    calculate_page_score rsqrt now d kws = spec_page_score rsqrt now d kws ∧
    0 ≤ calculate_page_score rsqrt now d kws ∧
    calculate_page_score rsqrt now d kws ≤ 1 ∧
    (kws = [] → calculate_page_score rsqrt now d kws = 0) := by
  have heq : calculate_page_score rsqrt now d kws = spec_page_score rsqrt now d kws := by
    by_cases hk : kws = []
    · simp [calculate_page_score, spec_page_score, hk]
    · have hf : cps_freshness_add now d.publish_date
          = spec_freshness_bonus now d.publish_date := cps_freshness_eq_spec now d.publish_date
      have hl : cps_length_add d.content_length = spec_length_bonus d.content_length := rfl
      have hc : cps_content_score rsqrt kws (pyLower d.main_content) d.content_length
          = min (rsqrt (1000 * (((countKeywordMatches kws (pyLower d.main_content) : ℚ) /
            ((d.content_length : ℚ) + 1/1000000)) / (kws.length : ℚ)))) 1 := by
        simp only [cps_content_score]
        rw [mul_comm]
      simp only [calculate_page_score, spec_page_score, hk, if_false, hf, hl, hc,
        cps_title_score]
      split_ifs <;> ring_nf
  have hbounds : 0 ≤ calculate_page_score rsqrt now d kws ∧
      calculate_page_score rsqrt now d kws ≤ 1 := by
    unfold calculate_page_score
    split_ifs
    · norm_num
    · constructor
      · exact le_max_left _ _
      · exact max_le (by norm_num) (min_le_right _ _)
  refine ⟨heq, hbounds.1, hbounds.2, fun hk => ?_⟩
  simp [calculate_page_score, hk]

/-- Witness for C2 at a concrete page: title "ml intro guide", a body
containing one of two keywords, 800 words, published 40 days before `now`. -/
theorem claim_calculate_page_score_formula_witness :
    calculate_page_score (fun q => q) 4000000 ⟨"ml intro guide", "ml text", some 100000, 800⟩
        ["ml", "zebra"]
      = spec_page_score (fun q => q) 4000000 ⟨"ml intro guide", "ml text", some 100000, 800⟩
        ["ml", "zebra"] ∧
    calculate_page_score (fun q => q) 4000000 ⟨"ml intro guide", "ml text", some 100000, 800⟩ [] = 0 := by
  have h1 := claim_calculate_page_score_formula (fun q => q) 4000000
    ⟨"ml intro guide", "ml text", some 100000, 800⟩ ["ml", "zebra"]
  have h2 := claim_calculate_page_score_formula (fun q => q) 4000000
    ⟨"ml intro guide", "ml text", some 100000, 800⟩ []
  exact ⟨h1.1, h2.2.2.2 rfl⟩

/-- Claim C6: `calculate_score` returns the empty list when the store is
empty, when no stored item has non-empty text content, and when `k ≤ 0`,
always returning normally — for every argsort implementation `sorter`
(these paths return before the sort runs). -/
theorem claim_calculate_score_edge_cases (sorter : List ℚ → List ℕ)
    (store : List StoreItem) (cosines : List ℚ) (k : ℤ) (wh wc : ℚ) :
    (store = [] → calculate_score sorter store cosines k wh wc = []) ∧
    ((∀ item ∈ store, item.main_content = "") →
      calculate_score sorter store cosines k wh wc = []) ∧
    (k ≤ 0 → calculate_score sorter store cosines k wh wc = []) := by
  refine ⟨?_, ?_, ?_⟩
  · rintro rfl
    rfl
  · intro hall
    have hdocs : (store.map (fun s => s.main_content)).all (fun s => s = "") = true := by
      simp only [List.all_eq_true, List.mem_map, decide_eq_true_eq]
      rintro x ⟨item, hmem, rfl⟩
      exact hall item hmem
    simp only [calculate_score]
    split_ifs <;> rfl
  · intro hk
    simp only [calculate_score]
    split_ifs with h1 h2 h3 <;> try rfl
    exact absurd (le_trans (min_le_left _ _) hk) h3

/-- Witness for C6: a one-item store queried with `k = 0` yields `[]`
(instantiated with the concrete small-array argsort). -/
theorem claim_calculate_score_edge_cases_witness :
    calculate_score argsort [⟨"some text", 1, 3⟩] [1] 0
      heuristic_score_weight cosine_similarity_score_weight = [] :=
  (claim_calculate_score_edge_cases _ _ _ _ _ _).2.2 (by norm_num)

/-- Claim C4: the URL filter admits a URL iff the percent-decoded,
lowercased `path + "?" + query` contains at least `min_keyword_matches`
(fixed to 1) of the (lowercased) prompt keywords as substrings; a URL whose
parse fails is rejected without an exception escaping; an empty keyword set
admits every URL. `parse` and `unq` are urllib's `urlparse` projection to
`(path, query)` (`none` when it raises) and `unquote`. -/
theorem claim_url_filter (parse : String → Option (String × String))
    (unq : String → String) (kws : List String) (url : String) :
    (kws = [] → url_contains_keywords parse unq (URLHeuristics.init kws) url = true) ∧
    (kws ≠ [] → parse url = none →
      url_contains_keywords parse unq (URLHeuristics.init kws) url = false) ∧
    (∀ path query, kws ≠ [] → parse url = some (path, query) →
      (url_contains_keywords parse unq (URLHeuristics.init kws) url = true ↔
        1 ≤ ((kws.map pyLower).filter
          (fun kw => strContains (pyLower (unq (path ++ "?" ++ query))) kw)).length)) ∧
    (URLHeuristics.init kws).min_keyword_matches = 1 := by
  refine ⟨?_, ?_, ?_, rfl⟩
  · rintro rfl
    rfl
  · intro hk hp
    simp [url_contains_keywords, URLHeuristics.init, hp, hk]
  · intro path query hk hp
    simp [url_contains_keywords, URLHeuristics.init, hp, hk]

/-- Witness for C4: keyword "ML" admits `/ml-intro?x=1`. -/
theorem claim_url_filter_witness :
    url_contains_keywords (fun _ => some ("/ml-intro", "x=1")) (fun s => s)
      (URLHeuristics.init ["ML"]) "https://h/ml-intro?x=1" = true := by
  have h := (claim_url_filter (fun _ => some ("/ml-intro", "x=1")) (fun s => s)
    ["ML"] "https://h/ml-intro?x=1").2.2.1 "/ml-intro" "x=1" (by simp) rfl
  exact h.mpr (by decide)

/-- `should_process_content` rejects empty or whitespace-only content and
leaves the hash set unchanged. -/
theorem spc_reject_ws (sha : String → Option String) (hashes : List String)
    (c : String) (hc : c = "" ∨ pyIsSpace c = true) :
    should_process_content sha hashes c = (false, hashes) := by
  rcases hc with hc | hc <;> simp [should_process_content, hc]

/-- `should_process_content` rejects when hashing fails. -/
theorem spc_reject_none (sha : String → Option String) (hashes : List String)
    (c : String) (hsha : sha c = none) :
    should_process_content sha hashes c = (false, hashes) := by
  unfold should_process_content
  split_ifs with h
  · rfl
  · rw [hsha]

/-- `should_process_content` rejects when the hash is already recorded. -/
theorem spc_reject_dup (sha : String → Option String) (hashes : List String)
    (c hh : String) (hsha : sha c = some hh) (hmem : hh ∈ hashes) :
    should_process_content sha hashes c = (false, hashes) := by
  unfold should_process_content
  split_ifs with h
  · rfl
  · rw [hsha]
    simp [hmem]

/-- `should_process_content` admits fresh, non-blank content, recording its
hash. -/
theorem spc_admit (sha : String → Option String) (hashes : List String)
    (c hh : String) (hws : ¬(c = "" ∨ pyIsSpace c = true)) (hsha : sha c = some hh)
    (hnm : hh ∉ hashes) :
    should_process_content sha hashes c = (true, hh :: hashes) := by
  push_neg at hws
  unfold should_process_content
  rw [if_neg (by simp [hws.1, hws.2]), hsha]
  simp [hnm]

/-- `_process_single_url`'s store/dedup step either leaves the state
untouched or, when the content is non-empty, passes the dedup checks, and
its hash is fresh, records the hash and appends the content. -/
theorem pcs_step_cases (sha : String → Option String) (st : DedupState) (c : String) :
    process_content_step sha st c = st ∨
    (∃ hh, sha c = some hh ∧ hh ∉ st.content_hashes ∧ c ≠ "" ∧
      process_content_step sha st c
        = ⟨hh :: st.content_hashes, st.content_store ++ [c]⟩) := by
  by_cases hc : c = ""
  · left
    simp [process_content_step, hc]
  · by_cases hw : pyIsSpace c = true
    · left
      simp [process_content_step, hc, spc_reject_ws sha st.content_hashes c (Or.inr hw)]
    · cases hsha : sha c with
      | none =>
        left
        simp [process_content_step, hc, spc_reject_none sha st.content_hashes c hsha]
      | some hh =>
        by_cases hmem : hh ∈ st.content_hashes
        · left
          simp [process_content_step, hc,
            spc_reject_dup sha st.content_hashes c hh hsha hmem]
        · right
          refine ⟨hh, rfl, hmem, hc, ?_⟩
          simp [process_content_step, hc,
            spc_admit sha st.content_hashes c hh (by tauto) hsha hmem]

/-- When the content passes every check, the step admits: it records the
hash and appends the body. -/
theorem pcs_step_admit (sha : String → Option String) (st : DedupState) (b hb : String)
    (hws : ¬(b = "" ∨ pyIsSpace b = true)) (hsha : sha b = some hb)
    (hnm : hb ∉ st.content_hashes) :
    process_content_step sha st b = ⟨hb :: st.content_hashes, st.content_store ++ [b]⟩ := by
  have hb' : b ≠ "" := by tauto
  simp [process_content_step, hb', spc_admit sha st.content_hashes b hb hws hsha hnm]

/-- Once a body's hash is recorded, processing that body again never changes
the state. -/
theorem pcs_step_blocked (sha : String → Option String) (st : DedupState) (b hb : String)
    (hsha : sha b = some hb) (hmem : hb ∈ st.content_hashes) :
    process_content_step sha st b = st := by
  by_cases hc : b = ""
  · simp [process_content_step, hc]
  · by_cases hw : pyIsSpace b = true
    · simp [process_content_step, hc, spc_reject_ws sha st.content_hashes b (Or.inr hw)]
    · simp [process_content_step, hc,
        spc_reject_dup sha st.content_hashes b hb hsha hmem]

theorem process_contents_cons (sha : String → Option String) (st : DedupState)
    (c : String) (rest : List String) :
    process_contents sha st (c :: rest)
      = process_contents sha (process_content_step sha st c) rest := rfl

/-- Once a body's hash is recorded, no later step can change how often the
body occurs in the store, and the hash stays recorded. -/
theorem process_contents_frozen (sha : String → Option String)
    (bodies : List String) (b hb : String) (hsha : sha b = some hb) :
    ∀ st : DedupState, hb ∈ st.content_hashes →
      (process_contents sha st bodies).content_store.count b
          = st.content_store.count b ∧
        hb ∈ (process_contents sha st bodies).content_hashes := by
  induction bodies with
  | nil => exact fun st hmem => ⟨rfl, hmem⟩
  | cons c rest ih =>
    intro st hmem
    rcases pcs_step_cases sha st c with heq | ⟨hh, hsc, hnm, hne, heq⟩
    · rw [process_contents_cons, heq]
      exact ih st hmem
    · by_cases hcb : c = b
      · subst hcb
        rw [hsha] at hsc
        cases hsc
        exact absurd hmem hnm
      · rw [process_contents_cons, heq]
        have hrec := ih ⟨hh :: st.content_hashes, st.content_store ++ [c]⟩
          (List.mem_cons_of_mem _ hmem)
        refine ⟨?_, hrec.2⟩
        rw [hrec.1]
        simp [List.count_append, List.count_singleton', hcb]

/-- Claim C3: `should_process_content` rejects empty/whitespace-only text,
rejects when hashing fails, rejects when the hash is already known, and
otherwise records the hash and admits; together with the caller's append in
`_process_single_url`, byte-identical bodies are stored exactly once (one
document, one hash) and, in general, any sequence of calls appends a given
body at most once.  `sha` abstracts `sha256(·.encode('utf-8',
errors='replace')).hexdigest()`; `none` models a hashing failure. -/
theorem claim_should_process_content_dedup :
    (∀ (sha : String → Option String) (hashes : List String) c,
      (c = "" ∨ pyIsSpace c = true) →
        should_process_content sha hashes c = (false, hashes)) ∧
    (∀ (sha : String → Option String) (hashes : List String) c, sha c = none →
      should_process_content sha hashes c = (false, hashes)) ∧
    (∀ (sha : String → Option String) (hashes : List String) c hh, sha c = some hh →
      hh ∈ hashes → should_process_content sha hashes c = (false, hashes)) ∧
    (∀ (sha : String → Option String) (hashes : List String) c hh,
      ¬(c = "" ∨ pyIsSpace c = true) → sha c = some hh → hh ∉ hashes →
        should_process_content sha hashes c = (true, hh :: hashes)) ∧
    (∀ (sha : String → Option String) (st : DedupState) (n : ℕ) (b hb : String),
      0 < n → ¬(b = "" ∨ pyIsSpace b = true) → sha b = some hb →
      hb ∉ st.content_hashes →
        process_contents sha st (List.replicate n b)
          = ⟨hb :: st.content_hashes, st.content_store ++ [b]⟩) ∧
    (∀ (sha : String → Option String) (st : DedupState) (bodies : List String)
      (b hb : String), sha b = some hb →
        (process_contents sha st bodies).content_store.count b
          ≤ st.content_store.count b + 1) := by
  refine ⟨spc_reject_ws, spc_reject_none, spc_reject_dup, spc_admit, ?_, ?_⟩
  · intro sha st n b hb hn hws hsha hnm
    obtain ⟨m, rfl⟩ : ∃ m, n = m + 1 := ⟨n - 1, by omega⟩
    rw [List.replicate_succ, process_contents_cons, pcs_step_admit sha st b hb hws hsha hnm]
    set st1 : DedupState := ⟨hb :: st.content_hashes, st.content_store ++ [b]⟩ with hst1
    have : ∀ (j : ℕ), process_contents sha st1 (List.replicate j b) = st1 := by
      intro j
      induction j with
      | zero => rfl
      | succ i ihi =>
        rw [List.replicate_succ, process_contents_cons,
          pcs_step_blocked sha st1 b hb hsha (by simp [hst1])]
        exact ihi
    exact this m
  · intro sha st bodies b hb hsha
    induction bodies generalizing st with
    | nil => exact Nat.le_succ_of_le le_rfl
    | cons c rest ih =>
      rcases pcs_step_cases sha st c with heq | ⟨hh, hsc, hnm, hne, heq⟩
      · rw [process_contents_cons, heq]
        exact ih st
      · by_cases hcb : c = b
        · subst hcb
          rw [hsha] at hsc
          cases hsc
          rw [process_contents_cons, heq]
          have hfr := process_contents_frozen sha rest c hb hsha
            ⟨hb :: st.content_hashes, st.content_store ++ [c]⟩ (List.mem_cons_self _ _)
          rw [hfr.1]
          simp [List.count_append, List.count_singleton]
        · rw [process_contents_cons, heq]
          have := ih ⟨hh :: st.content_hashes, st.content_store ++ [c]⟩
          simpa [List.count_append, List.count_singleton', hcb] using this

/-- Witness for C3: two fetches of the byte-identical body "dup body" from
distinct URLs leave exactly one stored document and one recorded hash. -/
theorem claim_should_process_content_dedup_witness :
    process_contents (fun s => some (s ++ "#sha")) ⟨[], []⟩ ["dup body", "dup body"]
      = ⟨["dup body#sha"], ["dup body"]⟩ :=
  (claim_should_process_content_dedup).2.2.2.2.1 (fun s => some (s ++ "#sha"))
    ⟨[], []⟩ 2 "dup body" "dup body#sha" (by norm_num) (by decide) rfl (by simp)

/-- Appending a fresh key at the tail is invisible to lookups of present
keys and installs the new bucket for its own key. -/
theorem lookupDepth_append (l : List (ℕ × HarvestBucket)) (d d0 : ℕ) (b : HarvestBucket) :
    lookupDepth (l ++ [(d0, b)]) d
      = match lookupDepth l d with
        | some x => some x
        | none => if d0 = d then some b else none := by
  induction l with
  | nil => simp [lookupDepth]
  | cons p ps ih =>
    by_cases hp : p.1 = d
    · simp [lookupDepth, hp]
    · simpa [lookupDepth, hp] using ih

/-- Updating the bucket stored at key `d` is visible exactly at key `d`. -/
theorem lookupDepth_mapUpd_page (s t : ℚ) (l : List (ℕ × HarvestBucket)) (d d2 : ℕ) :
    lookupDepth (l.map (fun p =>
        if p.1 = d then (p.1, pageBucketUpdate s t p.2) else p)) d2
      = if d2 = d then (lookupDepth l d2).map (pageBucketUpdate s t)
        else lookupDepth l d2 := by
  induction l with
  | nil => simp [lookupDepth]
  | cons p ps ih =>
    by_cases hq : d2 = d
    · subst hq
      by_cases hp : p.1 = d2 <;> simp_all [lookupDepth]
    · by_cases hp : p.1 = d
      · have hpd2 : ¬ p.1 = d2 := fun h => hq (by rw [← h]; exact hp)
        simp_all [lookupDepth]
      · by_cases hpq : p.1 = d2 <;> simp_all [lookupDepth]

/-- A successful lookup exhibits a member of the association list. -/
theorem lookupDepth_mem (l : List (ℕ × HarvestBucket)) (d : ℕ) (b : HarvestBucket)
    (h : lookupDepth l d = some b) : (d, b) ∈ l := by
  induction l with
  | nil => simp [lookupDepth] at h
  | cons p ps ih =>
    by_cases hp : p.1 = d
    · rw [lookupDepth, if_pos hp] at h
      cases h
      rw [← hp]
      exact List.mem_cons_self _ _
    · rw [lookupDepth, if_neg hp] at h
      exact List.mem_cons_of_mem _ (ih h)

/-- A processed `record_page` applies `pageBucketUpdate` to the (possibly
freshly initialized) bucket of its depth. -/
theorem record_page_lookup_self (st : HarvestRatioState) (d : ℕ) (s t : ℚ) :
    lookupDepth (record_page st d s t true).depth_metrics d
      = some (pageBucketUpdate s t (bucketAt st d)) := by
  unfold record_page
  cases hl : lookupDepth st.depth_metrics d with
  | none =>
    simp only [hl, Option.isNone_none, if_true, lookupDepth_mapUpd_page,
      lookupDepth_append, hl, bucketAt]
    simp [lookupDepth_append, hl, bucketAt]
  | some b =>
    simp only [hl, Option.isNone_some]
    simp [lookupDepth_mapUpd_page, hl, bucketAt]

/-- `record_page` never touches the bucket of a different depth. -/
theorem record_page_lookup_other (st : HarvestRatioState) (d : ℕ) (s t : ℚ)
    (proc : Bool) (d2 : ℕ) (hne : d2 ≠ d) :
    lookupDepth (record_page st d s t proc).depth_metrics d2
      = lookupDepth st.depth_metrics d2 := by
  unfold record_page
  cases hl : lookupDepth st.depth_metrics d <;> cases proc <;>
    simp only [hl, Option.isNone_none, Option.isNone_some, if_true, if_false,
      Bool.false_eq_true, Bool.true_eq_false, lookupDepth_mapUpd_page, hne,
      lookupDepth_append] <;>
    cases hl2 : lookupDepth st.depth_metrics d2 <;> simp_all
  all_goals omega

/-- Claim C8: with `is_processed = true`, `record_page` adds exactly 1 to
depth `d`'s total counter and adds 1 to its relevant counter iff
`page_score ≥ depth_threshold`, leaving every other depth bucket and the
cache bucket unchanged; `record_cache_access` adds `len(results)` to the
cache total and the number of results with `weighted_score ≥
base_relevance_threshold` to the cache relevant count, leaving all depth
buckets unchanged. -/
theorem claim_harvest_record_effects (st : HarvestRatioState) (d : ℕ)
    (s t : ℚ) (results : List ℚ) (base : ℚ) :
    (bucketAt (record_page st d s t true) d).total = (bucketAt st d).total + 1 ∧
    (bucketAt (record_page st d s t true) d).relevant
      = (bucketAt st d).relevant + (if t ≤ s then 1 else 0) ∧
    (∀ d2, d2 ≠ d → lookupDepth (record_page st d s t true).depth_metrics d2
      = lookupDepth st.depth_metrics d2) ∧
    (record_page st d s t true).cache_metrics = st.cache_metrics ∧
    (record_cache_access st results base).cache_metrics.total
      = st.cache_metrics.total + results.length ∧
    (record_cache_access st results base).cache_metrics.relevant
      = st.cache_metrics.relevant + (results.filter (fun r => base ≤ r)).length ∧
    (record_cache_access st results base).depth_metrics = st.depth_metrics := by
  have hself := record_page_lookup_self st d s t
  have hcache_d : (record_page st d s t true).cache_metrics = st.cache_metrics := by
    simp [record_page]
  have hcache3 : (record_cache_access st results base).cache_metrics.total
        = st.cache_metrics.total + results.length ∧
      (record_cache_access st results base).cache_metrics.relevant
        = st.cache_metrics.relevant + (results.filter (fun r => base ≤ r)).length ∧
      (record_cache_access st results base).depth_metrics = st.depth_metrics := by
    unfold record_cache_access
    by_cases hres : results = [] <;> simp [hres]
  refine ⟨?_, ?_, ?_, hcache_d, hcache3.1, hcache3.2.1, hcache3.2.2⟩
  · rw [bucketAt, hself]
    rfl
  · rw [bucketAt, hself]
    simp only [Option.getD_some, pageBucketUpdate]
    split_ifs <;> rfl
  · intro d2 hne
    exact record_page_lookup_other st d s t true d2 hne

/-- Witness for C8: recording a page with score 0.5 against threshold 0.3
at depth 1 on a fresh meter, and a cache access with one hit out of two. -/
theorem claim_harvest_record_effects_witness :
    (bucketAt (record_page initHarvest 1 (1/2) (3/10) true) 1).total
      = (bucketAt initHarvest 1).total + 1 ∧
    (record_cache_access initHarvest [1/2, 1/10] (3/10)).cache_metrics.total
      = initHarvest.cache_metrics.total + 2 :=
  ⟨(claim_harvest_record_effects initHarvest 1 (1/2) (3/10) [1/2, 1/10] (3/10)).1,
   (claim_harvest_record_effects initHarvest 1 (1/2) (3/10) [1/2, 1/10] (3/10)).2.2.2.2.1⟩

/-- Every call on the meter preserves the relevant-within-total invariant. -/
theorem meterWF_apply (st : HarvestRatioState) (op : MeterOp) (hwf : MeterWF st) :
    MeterWF (applyMeterOp st op) := by
  cases op with
  | page d s t proc =>
    have hdm : ∀ p ∈ (if (lookupDepth st.depth_metrics d).isNone
        then st.depth_metrics ++ [(d, (⟨0, 0⟩ : HarvestBucket))]
        else st.depth_metrics), p.2.relevant ≤ p.2.total := by
      split_ifs
      · intro p hp
        rcases List.mem_append.mp hp with hp | hp
        · exact hwf.1 p hp
        · rcases List.mem_singleton.mp hp with rfl
          exact le_rfl
      · exact hwf.1
    unfold applyMeterOp record_page
    cases proc with
    | false =>
      exact ⟨by simpa using hdm, hwf.2⟩
    | true =>
      refine ⟨?_, hwf.2⟩
      intro p hp
      simp only [if_true] at hp ⊢
      rcases List.mem_map.mp hp with ⟨q, hq, rfl⟩
      by_cases hqd : q.1 = d
      · have hqb := hdm q hq
        simp only [hqd, if_pos rfl, pageBucketUpdate]
        split_ifs <;> simp <;> omega
      · simp only [if_neg hqd]
        exact hdm q hq
  | cache rs b =>
    unfold applyMeterOp record_cache_access
    by_cases hrs : rs = []
    · simpa [hrs] using hwf
    · refine ⟨by simpa [hrs] using hwf.1, ?_⟩
      simp only [hrs, if_neg]
      have : (rs.filter (fun r => b ≤ r)).length ≤ rs.length :=
        List.length_filter_le _ _
      simp only [if_false]
      calc st.cache_metrics.relevant + (rs.filter (fun r => b ≤ r)).length
          ≤ st.cache_metrics.total + rs.length := Nat.add_le_add hwf.2 this

/-- The invariant holds after any sequence of meter calls. -/
theorem meterWF_run (ops : List MeterOp) : MeterWF (runMeter ops) := by
  have haux : ∀ (l : List MeterOp) (st : HarvestRatioState), MeterWF st →
      MeterWF (l.foldl applyMeterOp st) := by
    intro l
    induction l with
    | nil => exact fun st h => h
    | cons op rest ih => exact fun st h => ih _ (meterWF_apply st op h)
  exact haux ops initHarvest ⟨by simp [initHarvest], le_rfl⟩

/-- A ratio of ℕ-counts with `relevant ≤ total` lies in `[0, 1]`. -/
theorem countRatio_bounds (r t : ℕ) (h : r ≤ t) :
    0 ≤ (r : ℚ) / (t : ℚ) ∧ (r : ℚ) / (t : ℚ) ≤ 1 := by
  constructor
  · positivity
  · rcases Nat.eq_zero_or_pos t with rfl | ht
    · simp
    · rw [div_le_one (by exact_mod_cast ht)]
      exact_mod_cast h

/-- Claim C10: after any sequence of `record_page` and
`record_cache_access` calls on a fresh meter, every depth bucket and the
cache bucket satisfy `relevant ≤ total` (counts are naturals, hence
nonnegative), every ratio accessor returns a value in `[0, 1]`, and each
returns exactly 0 when its total count is 0, so no division by zero can
occur. -/
theorem claim_harvest_ratio_bounds (ops : List MeterOp) :
    (∀ d b, lookupDepth (runMeter ops).depth_metrics d = some b →
      b.relevant ≤ b.total) ∧
    (runMeter ops).cache_metrics.relevant ≤ (runMeter ops).cache_metrics.total ∧
    (∀ d, 0 ≤ get_depth_harvest_ratio (runMeter ops) d ∧
      get_depth_harvest_ratio (runMeter ops) d ≤ 1) ∧
    (0 ≤ get_cumulative_harvest_ratio (runMeter ops) ∧
      get_cumulative_harvest_ratio (runMeter ops) ≤ 1) ∧
    (0 ≤ get_cache_harvest_ratio (runMeter ops) ∧
      get_cache_harvest_ratio (runMeter ops) ≤ 1) ∧
    (0 ≤ get_overall_harvest_ratio (runMeter ops) ∧
      get_overall_harvest_ratio (runMeter ops) ≤ 1) ∧
    (∀ d, (bucketAt (runMeter ops) d).total = 0 →
      get_depth_harvest_ratio (runMeter ops) d = 0) ∧
    (cumulativeTotal (runMeter ops) = 0 →
      get_cumulative_harvest_ratio (runMeter ops) = 0) ∧
    ((runMeter ops).cache_metrics.total = 0 →
      get_cache_harvest_ratio (runMeter ops) = 0) ∧
    (cumulativeTotal (runMeter ops) + (runMeter ops).cache_metrics.total = 0 →
      get_overall_harvest_ratio (runMeter ops) = 0) := by
  have hwf := meterWF_run ops
  have hcum : cumulativeRelevant (runMeter ops) ≤ cumulativeTotal (runMeter ops) := by
    unfold cumulativeRelevant cumulativeTotal
    exact List.sum_le_sum (fun p hp => hwf.1 p hp)
  refine ⟨fun d b h => hwf.1 _ (lookupDepth_mem _ _ _ h), hwf.2, ?_, ?_, ?_, ?_, ?_, ?_, ?_, ?_⟩
  · intro d
    cases hl : lookupDepth (runMeter ops).depth_metrics d with
    | none =>
      have hval : get_depth_harvest_ratio (runMeter ops) d = 0 := by
        unfold get_depth_harvest_ratio
        rw [hl]
      rw [hval]
      norm_num
    | some b =>
      have hval : get_depth_harvest_ratio (runMeter ops) d
          = if b.total = 0 then 0 else (b.relevant : ℚ) / (b.total : ℚ) := by
        unfold get_depth_harvest_ratio
        rw [hl]
      rw [hval]
      split_ifs with ht
      · norm_num
      · exact countRatio_bounds _ _ (hwf.1 _ (lookupDepth_mem _ _ _ hl))
  · unfold get_cumulative_harvest_ratio
    split_ifs with ht
    · norm_num
    · exact countRatio_bounds _ _ hcum
  · unfold get_cache_harvest_ratio
    split_ifs with ht
    · norm_num
    · exact countRatio_bounds _ _ hwf.2
  · unfold get_overall_harvest_ratio
    split_ifs with ht
    · norm_num
    · exact countRatio_bounds _ _ (Nat.add_le_add hcum hwf.2)
  · intro d hzero
    cases hl : lookupDepth (runMeter ops).depth_metrics d with
    | none =>
      unfold get_depth_harvest_ratio
      rw [hl]
    | some b =>
      have hval : get_depth_harvest_ratio (runMeter ops) d
          = if b.total = 0 then 0 else (b.relevant : ℚ) / (b.total : ℚ) := by
        unfold get_depth_harvest_ratio
        rw [hl]
      have hbz : b.total = 0 := by simpa [bucketAt, hl] using hzero
      rw [hval, if_pos hbz]
  · intro h
    unfold get_cumulative_harvest_ratio
    rw [if_pos h]
  · intro h
    unfold get_cache_harvest_ratio
    rw [if_pos h]
  · intro h
    unfold get_overall_harvest_ratio
    rw [if_pos h]

/-- A fold that conditionally inserts the image of each word is the
insert-fold of the filtered map. -/
theorem foldl_insertUnique_eq (f : String → String) (P : String → Prop)
    [DecidablePred P] (words : List String) (acc : List String) :
    words.foldl (fun ks w => if P (f w) then insertUnique ks (f w) else ks) acc
      = ((words.map f).filter (fun t => P t)).foldl insertUnique acc := by
  induction words generalizing acc with
  | nil => rfl
  | cons w ws ih =>
    by_cases hp : P (f w)
    · simp only [List.foldl_cons, List.map_cons, List.filter_cons, hp,
        decide_eq_true_eq, if_true, if_pos]
      exact ih (insertUnique acc (f w))
    · simp only [List.foldl_cons, List.map_cons, List.filter_cons, hp,
        decide_eq_true_eq, if_false, if_neg]
      exact ih acc

theorem mem_insertUnique (acc : List String) (a x : String) :
    x ∈ insertUnique acc a ↔ x ∈ acc ∨ x = a := by
  unfold insertUnique
  split_ifs with h
  · constructor
    · exact Or.inl
    · rintro (hx | rfl)
      · exact hx
      · exact h
  · simp

theorem mem_foldl_insertUnique (l : List String) (x : String) :
    ∀ acc, x ∈ l.foldl insertUnique acc ↔ x ∈ acc ∨ x ∈ l := by
  induction l with
  | nil => simp
  | cons a as ih =>
    intro acc
    rw [List.foldl_cons, ih, mem_insertUnique]
    simp [or_assoc]

theorem mem_dedupFirstSeen (l : List String) (x : String) :
    x ∈ dedupFirstSeen l ↔ x ∈ l := by
  unfold dedupFirstSeen
  rw [mem_foldl_insertUnique]
  simp

/-- Counterexample to claim C5 as stated: for the input phrase "cats"
(with NLTK behaviour `lemmatize("cats") = "cat"`, instantiated by
`toyTokenize`/`toyLemmatize`), the source's `extract_keywords` returns only
the composed noun→verb lemma `"cat"` and drops the original token
`"cats"`, whereas the claimed pipeline (keep the original token and all
noun/verb/adjective/adverb lemma forms) retains `"cats"`. -/
theorem claim_extract_keywords_counterexample :
    extract_keywords toyTokenize toyLemmatize [] ["cats"] = ["cat"] ∧
    "cats" ∉ extract_keywords toyTokenize toyLemmatize [] ["cats"] ∧
    "cats" ∈ extract_keywords_spec toyTokenize toyLemmatize [] ["cats"] ∧
    extract_keywords_spec toyTokenize toyLemmatize [] ["cats"] = ["cats", "cat"] := by
  refine ⟨by decide, by decide, by decide, by decide⟩

/-- Claim C5 (amended): `extract_keywords` lowercases and tokenizes the
joined phrases, maps each token to its noun-then-verb composed lemma,
keeps exactly those lemmas that are alphanumeric, not stop-words and longer
than two characters, and returns them de-duplicated (the Python source
returns `list(set(...))`, whose order is unspecified; the model lists the
set in first-insertion order, so the listed equalities pin the set and the
model's order); an empty input yields an empty result and the function
never raises (it is total). -/
theorem claim_extract_keywords_pipeline (tokenize : String → List String)
    (lemmatize : String → WNPos → String) (stop : List String)
    (phrases : List String) :
    (phrases = [] → extract_keywords tokenize lemmatize stop phrases = []) ∧
    (phrases ≠ [] → extract_keywords tokenize lemmatize stop phrases
      = dedupFirstSeen (((tokenize (pyLower (String.intercalate " " phrases))).map
          (fun w => lemmatize (lemmatize w WNPos.n) WNPos.v)).filter
          (fun t => pyIsAlnum t ∧ t ∉ stop ∧ 2 < t.length))) ∧
    (∀ x, phrases ≠ [] →
      (x ∈ extract_keywords tokenize lemmatize stop phrases ↔
        (∃ w ∈ tokenize (pyLower (String.intercalate " " phrases)),
          x = lemmatize (lemmatize w WNPos.n) WNPos.v) ∧
        pyIsAlnum x = true ∧ x ∉ stop ∧ 2 < x.length)) := by
  have hmain : phrases ≠ [] → extract_keywords tokenize lemmatize stop phrases
      = dedupFirstSeen (((tokenize (pyLower (String.intercalate " " phrases))).map
          (fun w => lemmatize (lemmatize w WNPos.n) WNPos.v)).filter
          (fun t => pyIsAlnum t ∧ t ∉ stop ∧ 2 < t.length)) := by
    intro hph
    unfold extract_keywords dedupFirstSeen
    rw [if_neg hph]
    exact foldl_insertUnique_eq (fun word => lemmatize (lemmatize word WNPos.n) WNPos.v)
      (fun t => pyIsAlnum t ∧ t ∉ stop ∧ 2 < t.length)
      (tokenize (pyLower (String.intercalate " " phrases))) []
  refine ⟨fun hph => by simp [extract_keywords, hph], hmain, ?_⟩
  intro x hph
  rw [hmain hph, mem_dedupFirstSeen, List.mem_filter]
  simp only [List.mem_map, decide_eq_true_eq]
  constructor
  · rintro ⟨⟨w, hw, rfl⟩, hP⟩
    exact ⟨⟨w, hw, rfl⟩, hP.1, hP.2.1, hP.2.2⟩
  · rintro ⟨⟨w, hw, rfl⟩, h1, h2, h3⟩
    exact ⟨⟨w, hw, rfl⟩, h1, h2, h3⟩

/-- Witness for C5 (amended) at the phrase list `["cats"]`. -/
theorem claim_extract_keywords_pipeline_witness :
    extract_keywords toyTokenize toyLemmatize [] ["cats"]
      = dedupFirstSeen (((toyTokenize (pyLower (String.intercalate " " ["cats"]))).map
          (fun w => toyLemmatize (toyLemmatize w WNPos.n) WNPos.v)).filter
          (fun t => pyIsAlnum t ∧ t ∉ ([] : List String) ∧ 2 < t.length)) :=
  (claim_extract_keywords_pipeline toyTokenize toyLemmatize [] ["cats"]).2.1 (by simp)

/-- Witness for C10 after one processed page (score 0.5, threshold 0.3,
depth 0) and one cache access: the relevant ratios stay in `[0, 1]` and the
untouched depth-5 accessor returns 0. -/
theorem claim_harvest_ratio_bounds_witness :
    get_cumulative_harvest_ratio
        (runMeter [.page 0 (1/2) (3/10) true, .cache [1/2, 1/10] (3/10)]) ≤ 1 ∧
    get_depth_harvest_ratio
        (runMeter [.page 0 (1/2) (3/10) true, .cache [1/2, 1/10] (3/10)]) 5 = 0 := by
  have h := claim_harvest_ratio_bounds [.page 0 (1/2) (3/10) true, .cache [1/2, 1/10] (3/10)]
  exact ⟨h.2.2.2.1.2, (h.2.2.2.2.2.2.1 5) (by decide)⟩

/-- Upgrade a pairwise relation using a fact available for list members. -/
theorem pairwise_imp_mem {α : Type} {R S : α → α → Prop} {l : List α}
    (h1 : l.Pairwise R) (h : ∀ a ∈ l, ∀ b ∈ l, R a b → S a b) : l.Pairwise S := by
  induction h1 with
  | nil => exact List.Pairwise.nil
  | cons hr _ ih =>
    rename_i a l2 hp
    refine List.Pairwise.cons ?_ ?_
    · intro b hb
      exact h a (List.mem_cons_self _ _) b (List.mem_cons_of_mem _ hb) (hr b hb)
    · exact ih (fun x hx y hy => h x (List.mem_cons_of_mem _ hx) y (List.mem_cons_of_mem _ hy))

theorem argsort_perm (ws : List ℚ) : (argsort ws).Perm (List.range ws.length) :=
  List.perm_insertionSort _ _

theorem argsort_sorted (ws : List ℚ) : List.Sorted (idxRel ws) (argsort ws) :=
  List.sorted_insertionSort _ _

/-- The concrete small-array `argsort` satisfies `np.argsort`'s documented
contract. -/
theorem argsort_isArgsort : IsArgsort argsort := by
  intro ws
  refine ⟨argsort_perm ws, ?_⟩
  refine (argsort_sorted ws).imp ?_
  intro i j hij
  rcases hij with hlt | ⟨heq, _⟩
  · exact le_of_lt hlt
  · exact le_of_eq heq

/-- Counterexample to claim C1 as stated: a store of two distinct documents
with byte-identical bodies and equal heuristic scores (hence equal cosine
and weighted scores) is returned in REVERSED store order, because
`np.argsort(...)[::-1]` reverses the tie order before the final stable
sort; "stable tie order" (ties in store insertion order) fails.  At this
two-element array, numpy's introsort is insertion sort, so the concrete
`argsort` instantiation is the program's actual behaviour here. -/
theorem claim_calculate_score_stable_tie_counterexample :
    (calculate_score argsort [⟨"alpha beta", 1/2, 0⟩, ⟨"alpha beta", 1/2, 1⟩] [1/2, 1/2] 2
        heuristic_score_weight cosine_similarity_score_weight).map (fun r => r.item)
      = [⟨"alpha beta", 1/2, 1⟩, ⟨"alpha beta", 1/2, 0⟩] ∧
    (calculate_score argsort [⟨"alpha beta", 1/2, 0⟩, ⟨"alpha beta", 1/2, 1⟩] [1/2, 1/2] 2
        heuristic_score_weight cosine_similarity_score_weight).map (fun r => r.weighted_score)
      = [1/2, 1/2] ∧
    (⟨"alpha beta", 1/2, 1⟩ : StoreItem) ≠ ⟨"alpha beta", 1/2, 0⟩ := by
  have hws : List.zipWith (fun h c => heuristic_score_weight * h + cosine_similarity_score_weight * c)
      (List.map (fun s => s.heuristic_score)
        [(⟨"alpha beta", 1/2, 0⟩ : StoreItem), ⟨"alpha beta", 1/2, 1⟩]) [1/2, 1/2]
      = [1/2, 1/2] := by
    norm_num [heuristic_score_weight, cosine_similarity_score_weight]
  have hne : ¬("alpha beta" : String) = "" := by decide
  refine ⟨?_, ?_, ?_⟩
  · norm_num [calculate_score, hws, argsort, idxRel, weightedDesc,
      List.insertionSort, List.orderedInsert, List.range_succ]
    rw [if_neg hne]
    simp
  · norm_num [calculate_score, hws, argsort, idxRel, weightedDesc,
      List.insertionSort, List.orderedInsert, List.range_succ]
    rw [if_neg hne]
    norm_num [heuristic_score_weight, cosine_similarity_score_weight]
  · intro h
    cases h

/-- Claim C1 (amended): for every argsort implementation meeting numpy's
documented contract (`IsArgsort`: an index permutation ascending in value,
tie order unspecified — `kind='quicksort'` is not stable), every non-empty
store with some non-empty body, cosine vector of matching length and
`k > 0`, `calculate_score` returns records for `min(k, n)` distinct store
indices, each a copy of the stored item augmented with its cosine score,
its stored heuristic score and the weighted score `w_h·heuristic +
w_c·cosine` (defaults 0.6/0.4), sorted by weighted score in descending
order, and the selection is a top-k by weighted score: no unselected
document scores strictly higher than any selected one.  The relative order
of tied documents is NOT specified (in particular not stable; on small
stores it is reversed, as the counterexample shows).  The store itself is
untouched (the embedding is pure; the source copies each item). -/
theorem claim_calculate_score_ranking (sorter : List ℚ → List ℕ)
    (store : List StoreItem) (cosines : List ℚ) (k : ℤ) (wh wc : ℚ)
    (hsorter : IsArgsort sorter)
    (hlen : cosines.length = store.length)
    (hne : store ≠ [])
    (hcontent : ∃ item ∈ store, item.main_content ≠ "")
    (hk : 0 < k) :
    ∃ idxs : List ℕ,
      calculate_score sorter store cosines k wh wc = idxs.map (fun i =>
        { item := store.getD i default
          cosine_similarity_score := cosines.getD i 0
          heuristic_score := (store.getD i default).heuristic_score
          weighted_score := wh * (store.getD i default).heuristic_score
            + wc * cosines.getD i 0 : ScoredItem }) ∧
      idxs.length = (min k (store.length : ℤ)).toNat ∧
      idxs.Nodup ∧
      (∀ i ∈ idxs, i < store.length) ∧
      idxs.Pairwise (fun i j =>
        wh * (store.getD j default).heuristic_score + wc * cosines.getD j 0
          ≤ wh * (store.getD i default).heuristic_score + wc * cosines.getD i 0) ∧
      (∀ j < store.length, j ∉ idxs → ∀ i ∈ idxs,
        wh * (store.getD j default).heuristic_score + wc * cosines.getD j 0
          ≤ wh * (store.getD i default).heuristic_score + wc * cosines.getD i 0) ∧
      heuristic_score_weight = 6/10 ∧ cosine_similarity_score_weight = 4/10 := by
  classical
  set n := store.length with hn
  set ws : List ℚ := List.zipWith (fun h c => wh * h + wc * c)
    (store.map (fun s => s.heuristic_score)) cosines with hws
  obtain ⟨hperm, hsorted_val⟩ := hsorter ws
  have hws_len : ws.length = n := by
    rw [hws, List.length_zipWith, List.length_map, hlen, min_self]
  have hws_get : ∀ i, i < n → ws.getD i 0
      = wh * (store.getD i default).heuristic_score + wc * cosines.getD i 0 := by
    intro i hi
    have hi2 : i < ws.length := by rw [hws_len]; exact hi
    have hi3 : i < cosines.length := by rw [hlen]; exact hi
    rw [List.getD_eq_getElem ws 0 hi2, List.getD_eq_getElem cosines 0 hi3,
      List.getD_eq_getElem store default hi]
    simp only [hws, List.getElem_zipWith, List.getElem_map]
  -- resolve the guards of calculate_score
  have h1 : ¬(store.isEmpty = true) := by
    rw [List.isEmpty_iff]
    exact hne
  have h2 : ¬((store.map (fun s => s.main_content)).all (fun s => s = "") = true) := by
    obtain ⟨item, hmem, hitem⟩ := hcontent
    rw [List.all_eq_true]
    push_neg
    exact ⟨item.main_content, List.mem_map.mpr ⟨item, hmem, rfl⟩, by simpa using hitem⟩
  have hnpos : 0 < n := List.length_pos.mpr hne
  have h3 : ¬(min k (n : ℤ) ≤ 0) := by
    push_neg
    exact lt_min hk (by exact_mod_cast hnpos)
  set t : ℕ := (min k (n : ℤ)).toNat with ht
  set mkCode : ℕ → ScoredItem := fun i =>
    { item := store.getD i default
      cosine_similarity_score := cosines.getD i 0
      heuristic_score := (store.map (fun s => s.heuristic_score)).getD i 0
      weighted_score := ws.getD i 0 } with hmk
  set idxs : List ℕ := (sorter ws).reverse.take t with hidxs
  -- membership bound
  have hmem_bound : ∀ i ∈ idxs, i < n := by
    intro i hi
    have hmemA : i ∈ sorter ws := List.mem_reverse.mp (List.mem_of_mem_take hi)
    rw [hperm.mem_iff, List.mem_range, hws_len] at hmemA
    exact hmemA
  -- the computed result
  have hstep : calculate_score sorter store cosines k wh wc
      = List.insertionSort weightedDesc (idxs.map mkCode) := by
    simp only [calculate_score]
    rw [if_neg h1, if_neg h2, if_neg h3]
  -- sortedness of the selected, mapped list
  have hpwA : ((sorter ws).reverse).Pairwise (fun i j => ws.getD j 0 ≤ ws.getD i 0) :=
    List.pairwise_reverse.mpr hsorted_val
  have hpw_idxs : idxs.Pairwise (fun i j => ws.getD j 0 ≤ ws.getD i 0) :=
    hpwA.sublist (List.take_sublist _ _)
  have hsorted : List.Sorted weightedDesc (idxs.map mkCode) := by
    rw [List.Sorted, List.pairwise_map]
    refine hpw_idxs.imp ?_
    intro i j hij
    exact hij
  have hsort_eq : List.insertionSort weightedDesc (idxs.map mkCode) = idxs.map mkCode :=
    hsorted.insertionSort_eq
  -- code map agrees with the claimed map on selected indices
  have hmap_eq : idxs.map mkCode = idxs.map (fun i =>
      { item := store.getD i default
        cosine_similarity_score := cosines.getD i 0
        heuristic_score := (store.getD i default).heuristic_score
        weighted_score := wh * (store.getD i default).heuristic_score
          + wc * cosines.getD i 0 : ScoredItem }) := by
    apply List.map_congr_left
    intro i hi
    have hin := hmem_bound i hi
    have hh : (store.map (fun s => s.heuristic_score)).getD i 0
        = (store.getD i default).heuristic_score := by
      rw [List.getD_eq_getElem _ 0 (by rw [List.length_map]; exact hin),
        List.getD_eq_getElem store default hin, List.getElem_map]
    rw [hmk]
    simp only [hh, hws_get i hin]
  have hnodupA : ((sorter ws).reverse).Nodup :=
    List.nodup_reverse.mpr (hperm.nodup_iff.mpr (List.nodup_range _))
  refine ⟨idxs, ?_, ?_, ?_, hmem_bound, ?_, ?_, rfl, rfl⟩
  · rw [hstep, hsort_eq, hmap_eq]
  · -- length
    rw [hidxs, List.length_take, List.length_reverse]
    have hlen_arg : (sorter ws).length = n := by
      rw [hperm.length_eq, List.length_range, hws_len]
    rw [hlen_arg]
    apply min_eq_left
    rw [ht]
    exact Int.toNat_le.mpr (by exact_mod_cast min_le_right k (n : ℤ))
  · exact hnodupA.sublist (List.take_sublist _ _)
  · -- pairwise non-strict descending by weighted score
    refine pairwise_imp_mem hpw_idxs ?_
    intro i hi j hj hij
    rw [← hws_get i (hmem_bound i hi), ← hws_get j (hmem_bound j hj)]
    exact hij
  · -- top-k: no dropped document strictly beats a selected one
    intro j hj hnotin i hi
    have hjA : j ∈ (sorter ws).reverse := by
      rw [List.mem_reverse, hperm.mem_iff, List.mem_range, hws_len]
      exact hj
    have hsplit : (sorter ws).reverse = idxs ++ ((sorter ws).reverse).drop t :=
      (List.take_append_drop t _).symm
    have hjdrop : j ∈ ((sorter ws).reverse).drop t := by
      rcases List.mem_append.mp (hsplit ▸ hjA) with h | h
      · exact absurd h hnotin
      · exact h
    have hpw_split := hsplit ▸ hpwA
    have hcross := (List.pairwise_append.mp hpw_split).2.2
    have hrel : ws.getD j 0 ≤ ws.getD i 0 := hcross i hi j hjdrop
    rw [← hws_get i (hmem_bound i hi), ← hws_get j hj]
    exact hrel

/-- Witness for C1 (amended) on a concrete two-document store with `k = 1`,
instantiated with the concrete small-array argsort (which satisfies
`IsArgsort`). -/
theorem claim_calculate_score_ranking_witness :
    ∃ idxs : List ℕ,
      calculate_score argsort [⟨"alpha text", 1, 0⟩, ⟨"beta text", 0, 1⟩] [0, 1] 1 (6/10) (4/10)
        = idxs.map (fun i =>
          { item := ([⟨"alpha text", 1, 0⟩, ⟨"beta text", 0, 1⟩] : List StoreItem).getD i default
            cosine_similarity_score := ([0, 1] : List ℚ).getD i 0
            heuristic_score :=
              (([⟨"alpha text", 1, 0⟩, ⟨"beta text", 0, 1⟩] : List StoreItem).getD i default).heuristic_score
            weighted_score := (6/10) * (([⟨"alpha text", 1, 0⟩, ⟨"beta text", 0, 1⟩] : List StoreItem).getD i default).heuristic_score
              + (4/10) * ([0, 1] : List ℚ).getD i 0 : ScoredItem }) ∧
      idxs.length = (min 1 (([⟨"alpha text", 1, 0⟩, ⟨"beta text", 0, 1⟩] : List StoreItem).length : ℤ)).toNat := by
  obtain ⟨idxs, h1, h2, _⟩ := claim_calculate_score_ranking argsort
    [⟨"alpha text", 1, 0⟩, ⟨"beta text", 0, 1⟩] [0, 1] 1 (6/10) (4/10)
    argsort_isArgsort rfl (by simp) ⟨⟨"alpha text", 1, 0⟩, by simp, by simp⟩ (by norm_num)
  exact ⟨idxs, h1, h2⟩

end Crawler
